import Mathlib

/-!
Verification of the kdbus core model.

The repository provides `kdbus_internal.h` (struct declarations: `kdbus_ns`,
`kdbus_bus` with its `conn_id_next` / `msg_id_next` counters, `kdbus_ep`,
`kdbus_conn` with its `msg_list` mailbox, `kdbus_kmsg` with an embedded
refcount) and the kdbus documentation. The implementation bodies are not in
the tree, so the operations below are modelled from the specification text,
faithful to its words, and the stated properties are proved against these
models.
-/

namespace Kdbus

/-! ## Connection id allocation (bus counter)

`struct kdbus_bus` declares `u64 conn_id_next; /* next connection id sequence
number */`.  The documentation: "Connections are identified by their
connection id, internally implemented as a uint64_t counter. The IDs of every
newly created bus start at 1, and every new connection will increment the
counter by 1. The ids are not reused."  The counter is modelled as a `Nat`;
the spec treats the u64 counter as never wrapping ("never reused"). -/

/-- Modelled from the spec: the part of `struct kdbus_bus` relevant to
connection-id allocation (the `conn_id_next` counter); the allocation code
itself is not in src/. -/
structure KdbusBus where
  conn_id_next : Nat
deriving Repr, DecidableEq

/-- Modelled from the spec: bus creation (`kdbus_bus_new` is only declared in
`kdbus_internal.h`); "The IDs of every newly created bus start at 1". -/
def kdbus_bus_new : KdbusBus := { conn_id_next := 1 }

/-- Modelled from the spec: allocating a connection id hands out the current
counter value and increments it by 1. -/
def conn_alloc (b : KdbusBus) : KdbusBus × Nat :=
  ({ conn_id_next := b.conn_id_next + 1 }, b.conn_id_next)

/-- The bus state after `n` connection allocations on a fresh bus. -/
def busAfter : Nat → KdbusBus
  | 0 => kdbus_bus_new
  | n + 1 => (conn_alloc (busAfter n)).1

/-- The id handed to the `n`-th connection allocated on a fresh bus
(counting from 0). -/
def connIdAt (n : Nat) : Nat := (conn_alloc (busAfter n)).2

theorem busAfter_eq (n : Nat) : busAfter n = { conn_id_next := n + 1 } := by
  induction n with
  | zero => rfl
  | succ n ih => simp [busAfter, conn_alloc, ih]

theorem connIdAt_eq (n : Nat) : connIdAt n = n + 1 := by
  simp [connIdAt, conn_alloc, busAfter_eq]

/-! ## Destination resolution (message router) -/

/-- The reserved all-ones destination id: broadcast. -/
def KDBUS_DST_ID_BROADCAST : Nat := 2 ^ 64 - 1

/-- Error kinds surfaced by the send path. -/
inductive SendError where
  | NO_DEST
  | NAME_NOT_FOUND
  | POOL_FULL
  | USAGE
deriving Repr, DecidableEq

/-- Result of resolving a destination id. -/
inductive DestResolution where
  | unicast (id : Nat)
  | broadcast
deriving Repr, DecidableEq

/-- One entry of the per-bus name registry: a well-known name, its single
primary owner, and the ordered queue of connections waiting for it. -/
structure NameEntry where
  name : String
  owner : Nat
  queue : List Nat
deriving Repr, DecidableEq

/-- Per-bus name registry: a list of entries, one per registered name. -/
structure NameRegistry where
  entries : List NameEntry
deriving Repr, DecidableEq

/-- Modelled from the spec: wildcard matching.  "Policies may be defined with
names that end with '.*'. When matching a well-known name against such a
wildcard entry, the last part of the name is ignored and checked against the
wildcard name without the trailing '.*'." -/
def wildcardMatch (pat n : String) : Bool :=
  pat.endsWith ".*" &&
    String.intercalate "." ((n.splitOn ".").dropLast) == pat.dropRight 2

/-- Modelled from the spec: name lookup — an exact entry wins, otherwise a
wildcard entry may match after stripping the last label. -/
def nameLookup (r : NameRegistry) (n : String) : Option Nat :=
  match r.entries.find? (fun e => e.name == n) with
  | some e => some e.owner
  | none => (r.entries.find? (fun e => wildcardMatch e.name n)).map (fun e => e.owner)

/-- Modelled from the spec: destination resolution by the message router
(`KDBUS_CMD_MSG_SEND` handling is not in src/).  "Messages with a specific
uint64_t destination id are directly delivered to the connection with the
corresponding id. Messages with the special destination id 0xffffffffffffffff
are broadcast messages. Messages can specify the special destination id 0 and
carry a well-known name in the message data."  `connTable` is the bus's map
of live connection ids (`conn_idr`). -/
def resolveDest (connTable : List Nat) (reg : NameRegistry)
    (dst : Nat) (nameRec : Option String) : Except SendError DestResolution :=
  if dst = KDBUS_DST_ID_BROADCAST then .ok .broadcast
  else if dst = 0 then
    match nameRec with
    | none => .error .USAGE
    | some n =>
      match nameLookup reg n with
      | some owner => .ok (.unicast owner)
      | none => .error .NAME_NOT_FOUND
  else if connTable.contains dst then .ok (.unicast dst)
  else .error .NO_DEST

/-- The source id stamped by the router on a message: connections are stamped
with their connection id, kernel-synthesized messages with the reserved id 0. -/
inductive MsgSource where
  | kernel
  | conn (id : Nat)
deriving Repr, DecidableEq

/-- Modelled from the spec: "Messages synthesized and sent directly by the
kernel, will carry the special source id 0." -/
def stampSource : MsgSource → Nat
  | .kernel => 0
  | .conn id => id

/-- C1: For every bus, connection ids are allocated from a per-bus counter
starting at 1: any two connections allocated on the same bus have distinct
ids, both ids are at least 1, ids are never reused, and allocation order
equals numeric id order. -/
theorem conn_id_allocation (i j : Nat) (h : i < j) :
    connIdAt i ≠ connIdAt j ∧ 1 ≤ connIdAt i ∧ 1 ≤ connIdAt j ∧
      connIdAt i < connIdAt j := by
  rw [connIdAt_eq, connIdAt_eq]
  omega

theorem conn_id_allocation_witness :
    connIdAt 0 ≠ connIdAt 1 ∧ 1 ≤ connIdAt 0 ∧ 1 ≤ connIdAt 1 ∧
      connIdAt 0 < connIdAt 1 :=
  conn_id_allocation 0 1 (by decide)

/-- C2: Destination-id resolution follows the reserved-id scheme: an id in
[1, 2^64-2] is looked up in the connection table and fails with NO_DEST when
absent; id 0 requires a name record and resolves through the name registry,
failing with NAME_NOT_FOUND when no owner exists; the all-ones id selects the
broadcast path; and source id 0 is reserved for kernel-synthesized messages. -/
theorem resolve_dest_reserved_ids (ct : List Nat) (reg : NameRegistry)
    (dst : Nat) (n : String) (h1 : 1 ≤ dst) (h2 : dst ≤ 2 ^ 64 - 2) :
    (ct.contains dst = true → resolveDest ct reg dst none = .ok (.unicast dst)) ∧
    (ct.contains dst = false → resolveDest ct reg dst none = .error .NO_DEST) ∧
    resolveDest ct reg 0 none = .error .USAGE ∧
    (nameLookup reg n = none →
      resolveDest ct reg 0 (some n) = .error .NAME_NOT_FOUND) ∧
    (∀ o, nameLookup reg n = some o →
      resolveDest ct reg 0 (some n) = .ok (.unicast o)) ∧
    resolveDest ct reg KDBUS_DST_ID_BROADCAST none = .ok .broadcast ∧
    stampSource .kernel = 0 ∧
    (∀ i, 1 ≤ i → stampSource (.conn i) ≠ 0) := by
  have hne : dst ≠ KDBUS_DST_ID_BROADCAST := by
    unfold KDBUS_DST_ID_BROADCAST; omega
  have hnz : dst ≠ 0 := by omega
  refine ⟨?_, ?_, ?_, ?_, ?_, ?_, rfl, ?_⟩
  · intro hc
    have hm : dst ∈ ct := by simpa using hc
    simp [resolveDest, hne, hnz, hm]
  · intro hc
    have hm : dst ∉ ct := by simpa using hc
    simp [resolveDest, hne, hnz, hm]
  · simp [resolveDest, KDBUS_DST_ID_BROADCAST]
  · intro hl
    simp [resolveDest, KDBUS_DST_ID_BROADCAST, hl]
  · intro o hl
    simp [resolveDest, KDBUS_DST_ID_BROADCAST, hl]
  · simp [resolveDest]
  · intro i hi
    simp [stampSource]; omega

theorem resolve_dest_reserved_ids_witness :
    (List.contains [7] 7 = true →
      resolveDest [7] { entries := [] } 7 none = .ok (.unicast 7)) ∧
    (List.contains [7] 7 = false →
      resolveDest [7] { entries := [] } 7 none = .error .NO_DEST) ∧
    resolveDest [7] { entries := [] } 0 none = .error .USAGE ∧
    (nameLookup { entries := [] } "org.foo" = none →
      resolveDest [7] { entries := [] } 0 (some "org.foo") = .error .NAME_NOT_FOUND) ∧
    (∀ o, nameLookup { entries := [] } "org.foo" = some o →
      resolveDest [7] { entries := [] } 0 (some "org.foo") = .ok (.unicast o)) ∧
    resolveDest [7] { entries := [] } KDBUS_DST_ID_BROADCAST none = .ok .broadcast ∧
    stampSource .kernel = 0 ∧
    (∀ i, 1 ≤ i → stampSource (.conn i) ≠ 0) :=
  resolve_dest_reserved_ids [7] { entries := [] } 7 "org.foo"
    (by decide) (by decide)

/-! ## Broadcast matching: bloom filters and masks

The documentation: "The kernel will match the broadcast message's bloom
filter against the connections bloom mask and decide if the message should be
delivered to the connection. ... the mask with the closest matching
'generation' is selected as the index into the mask array."  Filter and mask
words are u64 bit fields; the match test per word is (filter AND NOT mask)
equal to zero. -/

/-- All 64 bits set: the u64 word against which complement is taken. -/
def U64_MASK : Nat := 2 ^ 64 - 1

/-- Bitwise complement of a u64 word. -/
def wordCompl (m : Nat) : Nat := m ^^^ U64_MASK

/-- Modelled from the spec: the per-word match test `(filter & ~mask) == 0`. -/
def bloomWordPass (f m : Nat) : Bool := f &&& wordCompl m == 0

/-- Modelled from the spec: a filter matches a mask when every word passes
the per-word test (the bit fields have equal size). -/
def bloomMatch (filter mask : List Nat) : Bool :=
  filter.length == mask.length &&
    (List.zip filter mask).all fun p => bloomWordPass p.1 p.2

/-- A broadcast message's bloom filter: a generation number and the bit-field
words. -/
structure BloomFilter where
  generation : Nat
  words : List Nat
deriving Repr, DecidableEq

/-- A match rule installed by a connection: one mask bit field for one
generation. -/
structure MatchRule where
  generation : Nat
  mask : List Nat
deriving Repr, DecidableEq

/-- One step of scanning the mask array for the best generation: keep the
candidate with the largest generation that does not exceed the filter's. -/
def selectStep (g : Nat) (best : Option MatchRule) (r : MatchRule) : Option MatchRule :=
  if r.generation ≤ g then
    match best with
    | none => some r
    | some b => if b.generation < r.generation then some r else best
  else best

/-- Modelled from the spec: "the mask with the closest matching 'generation'
is selected as the index into the mask array" — the installed mask whose
generation is `g`, or the nearest installed generation below `g`. -/
def selectMask (rules : List MatchRule) (g : Nat) : Option MatchRule :=
  rules.foldl (selectStep g) none

/-- Modelled from the spec: broadcast delivery decision for one connection.
"Without any rules installed in the connection, no broadcast message will be
delivered to the connection." -/
def broadcastDelivered (rules : List MatchRule) (f : BloomFilter) : Bool :=
  match selectMask rules f.generation with
  | none => false
  | some r => bloomMatch f.words r.mask

theorem selectStep_some_cases (g : Nat) (acc : Option MatchRule) (a r : MatchRule)
    (h : selectStep g acc a = some r) : acc = some r ∨ r = a := by
  unfold selectStep at h
  by_cases ha : a.generation ≤ g
  · simp only [ha, if_true] at h
    cases acc with
    | none => right; simpa using h.symm
    | some b =>
      by_cases hb : b.generation < a.generation
      · simp only [hb, if_true] at h
        right; simpa using h.symm
      · simp only [hb, if_false] at h
        left; exact h.symm ▸ rfl
  · simp only [ha, if_false] at h
    left; exact h.symm ▸ rfl

theorem selectStep_ge (g : Nat) (acc : Option MatchRule) (a b r : MatchRule)
    (hacc : acc = some b) (h : selectStep g acc a = some r) :
    b.generation ≤ r.generation := by
  subst hacc
  unfold selectStep at h
  by_cases ha : a.generation ≤ g
  · simp only [ha, if_true] at h
    by_cases hb : b.generation < a.generation
    · simp only [hb, if_true] at h
      have heq : a = r := by simpa using h
      subst heq
      omega
    · simp only [hb, if_false] at h
      have heq : b = r := by simpa using h
      subst heq
      omega
  · simp only [ha, if_false] at h
    have heq : b = r := by simpa using h
    subst heq
    omega

theorem selectStep_le (g : Nat) (acc : Option MatchRule) (a r : MatchRule)
    (hacc : ∀ b, acc = some b → b.generation ≤ g)
    (h : selectStep g acc a = some r) : r.generation ≤ g := by
  rcases selectStep_some_cases g acc a r h with hc | hc
  · exact hacc r hc
  · subst hc
    unfold selectStep at h
    by_cases ha : r.generation ≤ g
    · exact ha
    · simp only [ha, if_false] at h
      exact hacc r h

theorem selectStep_isSome_of_acc (g : Nat) (acc : Option MatchRule) (a : MatchRule)
    (h : acc.isSome = true) : (selectStep g acc a).isSome = true := by
  unfold selectStep
  cases acc with
  | none => simp at h
  | some b =>
    by_cases ha : a.generation ≤ g
    · simp only [ha, if_true]
      by_cases hb : b.generation < a.generation <;> simp [hb]
    · simp [ha]

theorem selectStep_isSome_of_le (g : Nat) (acc : Option MatchRule) (a : MatchRule)
    (h : a.generation ≤ g) : (selectStep g acc a).isSome = true := by
  unfold selectStep
  simp only [h, if_true]
  cases acc with
  | none => simp
  | some b => by_cases hb : b.generation < a.generation <;> simp [hb]

theorem foldl_selectStep_ge (g : Nat) :
    ∀ (rules : List MatchRule) (acc : Option MatchRule) (b r : MatchRule),
      acc = some b → rules.foldl (selectStep g) acc = some r →
      b.generation ≤ r.generation := by
  intro rules
  induction rules with
  | nil =>
    intro acc b r hacc h
    simp only [List.foldl_nil] at h
    rw [hacc] at h
    have heq : b = r := by simpa using h
    subst heq
    omega
  | cons a l ih =>
    intro acc b r hacc h
    simp only [List.foldl_cons] at h
    cases hstep : selectStep g acc a with
    | none =>
      have hs : (selectStep g acc a).isSome = true :=
        selectStep_isSome_of_acc g acc a (by rw [hacc]; rfl)
      rw [hstep] at hs
      simp at hs
    | some b' =>
      have h1 : b.generation ≤ b'.generation := selectStep_ge g acc a b b' hacc hstep
      have h2 : b'.generation ≤ r.generation := by
        rw [hstep] at h
        exact ih (some b') b' r rfl h
      omega

theorem foldl_selectStep_mem (g : Nat) :
    ∀ (rules : List MatchRule) (acc : Option MatchRule) (r : MatchRule),
      rules.foldl (selectStep g) acc = some r →
      acc = some r ∨ r ∈ rules := by
  intro rules
  induction rules with
  | nil =>
    intro acc r h
    simp only [List.foldl_nil] at h
    left; exact h
  | cons a l ih =>
    intro acc r h
    simp only [List.foldl_cons] at h
    rcases ih (selectStep g acc a) r h with hc | hc
    · rcases selectStep_some_cases g acc a r hc with h1 | h1
      · left; exact h1
      · right; subst h1; exact List.mem_cons_self _ _
    · right; exact List.mem_cons_of_mem _ hc

theorem foldl_selectStep_le (g : Nat) :
    ∀ (rules : List MatchRule) (acc : Option MatchRule) (r : MatchRule),
      (∀ b, acc = some b → b.generation ≤ g) →
      rules.foldl (selectStep g) acc = some r →
      r.generation ≤ g := by
  intro rules
  induction rules with
  | nil =>
    intro acc r hacc h
    simp only [List.foldl_nil] at h
    exact hacc r h
  | cons a l ih =>
    intro acc r hacc h
    simp only [List.foldl_cons] at h
    exact ih (selectStep g acc a) r
      (fun b hb => selectStep_le g acc a b hacc hb) h

theorem foldl_selectStep_max (g : Nat) :
    ∀ (rules : List MatchRule) (acc : Option MatchRule) (r : MatchRule),
      rules.foldl (selectStep g) acc = some r →
      ∀ x ∈ rules, x.generation ≤ g → x.generation ≤ r.generation := by
  intro rules
  induction rules with
  | nil =>
    intro acc r _ x hx
    exact absurd hx (List.not_mem_nil x)
  | cons a l ih =>
    intro acc r h x hx hxg
    simp only [List.foldl_cons] at h
    rcases List.mem_cons.mp hx with hc | hc
    · subst hc
      have hstep : ∃ b', selectStep g acc x = some b' ∧ x.generation ≤ b'.generation := by
        unfold selectStep
        simp only [hxg, if_true]
        cases acc with
        | none => exact ⟨x, rfl, le_refl _⟩
        | some b =>
          by_cases hb : b.generation < x.generation
          · simp only [hb, if_true]
            exact ⟨x, rfl, le_refl _⟩
          · simp only [hb, if_false]
            exact ⟨b, rfl, by omega⟩
      rcases hstep with ⟨b', hb', hle⟩
      rw [hb'] at h
      have := foldl_selectStep_ge g l (some b') b' r rfl h
      omega
    · exact ih (selectStep g acc a) r h x hc hxg

theorem foldl_selectStep_isSome (g : Nat) :
    ∀ (rules : List MatchRule) (acc : Option MatchRule),
      ((∃ x ∈ rules, x.generation ≤ g) ∨ acc.isSome = true) →
      (rules.foldl (selectStep g) acc).isSome = true := by
  intro rules
  induction rules with
  | nil =>
    intro acc h
    rcases h with ⟨x, hx, _⟩ | h
    · exact absurd hx (List.not_mem_nil x)
    · simpa using h
  | cons a l ih =>
    intro acc h
    simp only [List.foldl_cons]
    apply ih
    rcases h with ⟨x, hx, hxg⟩ | hs
    · rcases List.mem_cons.mp hx with hc | hc
      · subst hc
        exact Or.inr (selectStep_isSome_of_le g acc x hxg)
      · exact Or.inl ⟨x, hc, hxg⟩
    · exact Or.inr (selectStep_isSome_of_acc g acc a hs)

theorem subset_word_passes (f m : Nat) (hf : f < 2 ^ 64) (hm : f &&& m = f) :
    bloomWordPass f m = true := by
  have hz : f &&& wordCompl m = 0 := by
    apply Nat.eq_of_testBit_eq
    intro i
    simp only [Nat.testBit_land, Nat.testBit_xor, Nat.zero_testBit, wordCompl, U64_MASK,
      Nat.testBit_two_pow_sub_one]
    by_cases hi : i < 64
    · simp only [hi, decide_eq_true_eq, decide_eq_true hi]
      have ht := congrArg (fun x => x.testBit i) hm
      simp only [Nat.testBit_land] at ht
      cases hfi : f.testBit i with
      | false => simp
      | true =>
        have hmi : m.testBit i = true := by
          rw [hfi] at ht
          simpa using ht
        simp [hmi]
    · have hfi : f.testBit i = false := by
        apply Nat.testBit_eq_false_of_lt
        calc f < 2 ^ 64 := hf
          _ ≤ 2 ^ i := Nat.pow_le_pow_right (by omega) (by omega)
      simp [hfi]
  simp [bloomWordPass, hz]

/-- Generations of bloom hash-element sets: each generation adds its new
elements to everything the previous generation recognized.  "A later
generation must always contain all elements of the set of the previous
generation, but can add new elements to the set." -/
def genElems (newElems : Nat → List Nat) : Nat → List Nat
  | 0 => newElems 0
  | g + 1 => genElems newElems g ++ newElems (g + 1)

theorem genElems_mono (ne : Nat → List Nat) (g g' : Nat) (h : g ≤ g') :
    ∀ e ∈ genElems ne g, e ∈ genElems ne g' := by
  induction g' with
  | zero =>
    have : g = 0 := by omega
    subst this
    intro e he; exact he
  | succ k ih =>
    intro e he
    by_cases hk : g = k + 1
    · subst hk; exact he
    · have hle : g ≤ k := by omega
      simp only [genElems, List.mem_append]
      exact Or.inl (ih hle e he)

/-- The mask bit field covers a set of bits: every word of `bits` is
contained in the corresponding mask word. -/
def maskCovers (mask bits : List Nat) : Bool :=
  bits.length == mask.length &&
    (List.zip bits mask).all fun p => p.1 &&& p.2 == p.1

/-- All words fit in a u64. -/
def wordsBounded (ws : List Nat) : Bool := ws.all fun w => decide (w < 2 ^ 64)

theorem covered_bits_match :
    ∀ (bits mask : List Nat), maskCovers mask bits = true →
      wordsBounded bits = true → bloomMatch bits mask = true := by
  intro bits
  induction bits with
  | nil =>
    intro mask hc _
    simp only [maskCovers, List.length_nil, Bool.and_eq_true, beq_iff_eq] at hc
    simp [bloomMatch, ← hc.1]
  | cons b bs ih =>
    intro mask hc hb
    cases mask with
    | nil => simp [maskCovers] at hc
    | cons m ms =>
      simp only [maskCovers, List.length_cons, Bool.and_eq_true, beq_iff_eq,
        List.zip_cons_cons, List.all_cons] at hc
      simp only [wordsBounded, List.all_cons, Bool.and_eq_true, decide_eq_true_eq] at hb
      have hrec : bloomMatch bs ms = true := by
        apply ih ms
        · simp only [maskCovers, Bool.and_eq_true, beq_iff_eq]
          exact ⟨by omega, hc.2.2⟩
        · simpa [wordsBounded] using hb.2
      simp only [bloomMatch, List.length_cons, Bool.and_eq_true, beq_iff_eq,
        List.zip_cons_cons, List.all_cons] at hrec ⊢
      refine ⟨by omega, ?_, hrec.2⟩
      exact subset_word_passes b m hb.1 (by simpa using hc.2.1)

/-- C3: A broadcast with filter F is delivered to connection C only if C has
installed a match rule whose mask M, at the generation selected for F,
satisfies (F & ~M) == 0 for every word; a connection with no rules receives
no broadcasts; and false negatives are impossible: whenever the selected
mask passes the test, the message is delivered. -/
theorem broadcast_match_delivery (rules : List MatchRule) (f : BloomFilter) :
    (broadcastDelivered rules f = true →
      ∃ r ∈ rules, r.generation ≤ f.generation ∧ bloomMatch f.words r.mask = true) ∧
    broadcastDelivered [] f = false ∧
    (∀ r, selectMask rules f.generation = some r → bloomMatch f.words r.mask = true →
      broadcastDelivered rules f = true) := by
  refine ⟨?_, ?_, ?_⟩
  · intro hd
    unfold broadcastDelivered at hd
    cases hsel : selectMask rules f.generation with
    | none => rw [hsel] at hd; simp at hd
    | some r =>
      rw [hsel] at hd
      have hmem : r ∈ rules := by
        rcases foldl_selectStep_mem f.generation rules none r hsel with h | h
        · simp at h
        · exact h
      have hle : r.generation ≤ f.generation :=
        foldl_selectStep_le f.generation rules none r (by simp) hsel
      exact ⟨r, hmem, hle, hd⟩
  · simp [broadcastDelivered, selectMask]
  · intro r hsel hm
    unfold broadcastDelivered
    rw [hsel]
    exact hm

theorem broadcast_match_delivery_witness :
    (broadcastDelivered [{ generation := 0, mask := [8] }]
        { generation := 0, words := [8] } = true →
      ∃ r ∈ [({ generation := 0, mask := [8] } : MatchRule)],
        r.generation ≤ 0 ∧ bloomMatch [8] r.mask = true) ∧
    broadcastDelivered [] { generation := 0, words := [8] } = false ∧
    (∀ r, selectMask [{ generation := 0, mask := [8] }] 0 = some r →
      bloomMatch [8] r.mask = true →
      broadcastDelivered [{ generation := 0, mask := [8] }]
        { generation := 0, words := [8] } = true) :=
  broadcast_match_delivery [{ generation := 0, mask := [8] }]
    { generation := 0, words := [8] }

/-- C4: The mask selected for an incoming filter of generation g is the one
whose generation equals g, or the nearest installed generation below g when g
is newer than any installed mask; generations are monotone (generation g+1's
element set contains generation g's); and a mask covering an element's bits
still recognizes those bits in any filter word they produce. -/
theorem bloom_generation_selection (rules : List MatchRule) (g g' : Nat)
    (ne : Nat → List Nat) (h : g ≤ g') :
    (∀ r, selectMask rules g = some r →
      r.generation ≤ g ∧ ∀ x ∈ rules, x.generation ≤ g → x.generation ≤ r.generation) ∧
    (∀ x ∈ rules, x.generation = g →
      ∃ r, selectMask rules g = some r ∧ r.generation = g) ∧
    (∀ e ∈ genElems ne g, e ∈ genElems ne g') ∧
    (∀ mask bits, maskCovers mask bits = true → wordsBounded bits = true →
      bloomMatch bits mask = true) := by
  refine ⟨?_, ?_, genElems_mono ne g g' h, fun mask bits => covered_bits_match bits mask⟩
  · intro r hsel
    exact ⟨foldl_selectStep_le g rules none r (by simp) hsel,
      foldl_selectStep_max g rules none r hsel⟩
  · intro x hx hxg
    have hs : (selectMask rules g).isSome = true :=
      foldl_selectStep_isSome g rules none (Or.inl ⟨x, hx, by omega⟩)
    rcases Option.isSome_iff_exists.mp hs with ⟨r, hr⟩
    refine ⟨r, hr, ?_⟩
    have h1 : r.generation ≤ g := foldl_selectStep_le g rules none r (by simp) hr
    have h2 : x.generation ≤ r.generation :=
      foldl_selectStep_max g rules none r hr x hx (by omega)
    omega

theorem bloom_generation_selection_witness :
    (∀ r, selectMask [{ generation := 1, mask := [3] }] 2 = some r →
      r.generation ≤ 2 ∧ ∀ x ∈ [({ generation := 1, mask := [3] } : MatchRule)],
        x.generation ≤ 2 → x.generation ≤ r.generation) ∧
    (∀ x ∈ [({ generation := 1, mask := [3] } : MatchRule)], x.generation = 2 →
      ∃ r, selectMask [{ generation := 1, mask := [3] }] 2 = some r ∧
        r.generation = 2) ∧
    (∀ e ∈ genElems (fun k => [k]) 2, e ∈ genElems (fun k => [k]) 3) ∧
    (∀ mask bits, maskCovers mask bits = true → wordsBounded bits = true →
      bloomMatch bits mask = true) :=
  bloom_generation_selection [{ generation := 1, mask := [3] }] 2 3
    (fun k => [k]) (by decide)

/-! ## Sealed memory objects (kdbus_memfd)

The documentation: "sealing prevents all writable access to the file content.
Only sealed kdbus_memfd files are accepted as payload data ... The sealing of
a kdbus_memfd can be removed again by the sender or the receiver, as soon as
the kdbus_memfd is not shared anymore." -/

/-- Modelled from the spec: a kdbus_memfd — a byte region, a sealed flag and
a live reference count (the memfd code is not in src/). -/
structure Memfd where
  bytes : List Nat
  sealed : Bool
  refs : Nat
deriving Repr, DecidableEq

/-- Error kinds of the sealed-memory operations. -/
inductive MemfdError where
  | WRITE_ON_SEALED
  | UNSEAL_SHARED
deriving Repr, DecidableEq

/-- Overwrite `bytes` at `off` with `data`. -/
def writeAt (bytes : List Nat) (off : Nat) (data : List Nat) : List Nat :=
  bytes.take off ++ data ++ bytes.drop (off + data.length)

/-- Modelled from the spec: write is rejected while sealed. -/
def memfd_write (m : Memfd) (off : Nat) (data : List Nat) : Except MemfdError Memfd :=
  if m.sealed then .error .WRITE_ON_SEALED
  else .ok { m with bytes := writeAt m.bytes off data }

/-- Modelled from the spec: unseal succeeds only when the object has exactly
one live reference. -/
def memfd_unseal (m : Memfd) : Except MemfdError Memfd :=
  if m.refs = 1 then .ok { m with sealed := false }
  else .error .UNSEAL_SHARED

/-- Modelled from the spec: "Only sealed kdbus_memfd files are accepted as
payload data" — the send-time check on a MEMFD payload record. -/
def memfdSendCheck (m : Memfd) : Except SendError Unit :=
  if m.sealed then .ok () else .error .USAGE

/-- C6: A write to a sealed memory object fails with WRITE_ON_SEALED; unseal
succeeds if and only if the live reference count is exactly one, failing with
UNSEAL_SHARED otherwise; and only a sealed object passes the send-time check,
so an unsealed memfd record is rejected. -/
theorem sealed_memfd_rules (m : Memfd) (off : Nat) (data : List Nat) :
    (m.sealed = true → memfd_write m off data = .error .WRITE_ON_SEALED) ∧
    (memfd_unseal m = .ok { m with sealed := false } ↔ m.refs = 1) ∧
    (m.refs ≠ 1 → memfd_unseal m = .error .UNSEAL_SHARED) ∧
    (memfdSendCheck m = .ok () ↔ m.sealed = true) ∧
    (m.sealed = false → memfdSendCheck m = .error .USAGE) := by
  refine ⟨?_, ?_, ?_, ?_, ?_⟩
  · intro h
    simp [memfd_write, h]
  · constructor
    · intro h
      unfold memfd_unseal at h
      by_cases hr : m.refs = 1
      · exact hr
      · simp [hr] at h
    · intro h
      simp [memfd_unseal, h]
  · intro h
    simp [memfd_unseal, h]
  · constructor
    · intro h
      unfold memfdSendCheck at h
      by_cases hs : m.sealed
      · exact hs
      · simp [hs] at h
    · intro h
      simp [memfdSendCheck, h]
  · intro h
    simp [memfdSendCheck, h]

theorem sealed_memfd_rules_witness :
    (({ bytes := [1], sealed := true, refs := 2 } : Memfd).sealed = true →
      memfd_write { bytes := [1], sealed := true, refs := 2 } 0 [9] =
        .error .WRITE_ON_SEALED) ∧
    (memfd_unseal { bytes := [1], sealed := true, refs := 2 } =
        .ok { bytes := [1], sealed := false, refs := 2 } ↔
      ({ bytes := [1], sealed := true, refs := 2 } : Memfd).refs = 1) ∧
    (({ bytes := [1], sealed := true, refs := 2 } : Memfd).refs ≠ 1 →
      memfd_unseal { bytes := [1], sealed := true, refs := 2 } =
        .error .UNSEAL_SHARED) ∧
    (memfdSendCheck { bytes := [1], sealed := true, refs := 2 } = .ok () ↔
      ({ bytes := [1], sealed := true, refs := 2 } : Memfd).sealed = true) ∧
    (({ bytes := [1], sealed := true, refs := 2 } : Memfd).sealed = false →
      memfdSendCheck { bytes := [1], sealed := true, refs := 2 } =
        .error .USAGE) :=
  sealed_memfd_rules { bytes := [1], sealed := true, refs := 2 } 0 [9]

/-! ## Receive pool and POOL_FULL

The documentation: "receivers request a memory pool of a given size, large
enough to carry all backlog of data enqueued for the connection."  The spec:
a reservation that would overflow the pool fails the send with POOL_FULL; the
router neither blocks nor buffers elsewhere nor drops silently; a FREE by the
receiver can make a retry succeed. -/

/-- Modelled from the spec: a per-connection receive pool — total size and
currently reserved bytes. -/
structure Pool where
  size : Nat
  used : Nat
deriving Repr, DecidableEq

/-- Modelled from the spec: a receiving connection as the send path sees it —
its pool and its mailbox of queued messages (payload sizes). -/
structure RecvConn where
  pool : Pool
  mailbox : List Nat
deriving Repr, DecidableEq

/-- Modelled from the spec: reserve `n` bytes, failing with POOL_FULL when
the reservation would overflow. -/
def pool_reserve (p : Pool) (n : Nat) : Except SendError Pool :=
  if p.size < p.used + n then .error .POOL_FULL
  else .ok { p with used := p.used + n }

/-- Modelled from the spec: the receiver frees `n` reserved bytes after
consuming a message. -/
def pool_free (p : Pool) (n : Nat) : Pool := { p with used := p.used - n }

/-- Modelled from the spec: one send into a destination connection — reserve
pool space, then append to the mailbox; on failure the destination is left
exactly as it was and the error is reported to the sender. -/
def kdbus_send_step (c : RecvConn) (msg : Nat) : RecvConn × Option SendError :=
  match pool_reserve c.pool msg with
  | .error e => (c, some e)
  | .ok p => ({ pool := p, mailbox := c.mailbox ++ [msg] }, none)

/-- Modelled from the spec: FREE on the receiving connection. -/
def recv_free (c : RecvConn) (n : Nat) : RecvConn :=
  { c with pool := pool_free c.pool n }

/-- C7: A send whose reservation would overflow the destination pool fails
with POOL_FULL and leaves the destination's pool and mailbox unchanged (not
blocked, not buffered elsewhere, not silently dropped — the error goes back
to the sender); after the receiver frees enough space, a retry of the same
send succeeds and enqueues the message. -/
theorem pool_full_send (c : RecvConn) (msg k : Nat)
    (hover : c.pool.size < c.pool.used + msg)
    (hretry : c.pool.used - k + msg ≤ c.pool.size) :
    kdbus_send_step c msg = (c, some .POOL_FULL) ∧
    (kdbus_send_step (recv_free c k) msg).2 = none ∧
    (kdbus_send_step (recv_free c k) msg).1.mailbox = c.mailbox ++ [msg] := by
  have h1 : kdbus_send_step c msg = (c, some .POOL_FULL) := by
    simp [kdbus_send_step, pool_reserve, hover]
  have h2 : pool_reserve (pool_free c.pool k) msg =
      .ok { size := c.pool.size, used := c.pool.used - k + msg } := by
    simp only [pool_free, pool_reserve]
    rw [if_neg (by omega)]
  refine ⟨h1, ?_, ?_⟩ <;> simp [kdbus_send_step, h2, recv_free]

theorem pool_full_send_witness :
    kdbus_send_step { pool := { size := 4096, used := 4096 }, mailbox := [512] } 512 =
      ({ pool := { size := 4096, used := 4096 }, mailbox := [512] }, some .POOL_FULL) ∧
    (kdbus_send_step
      (recv_free { pool := { size := 4096, used := 4096 }, mailbox := [512] } 512)
      512).2 = none ∧
    (kdbus_send_step
      (recv_free { pool := { size := 4096, used := 4096 }, mailbox := [512] } 512)
      512).1.mailbox = [512] ++ [512] :=
  pool_full_send { pool := { size := 4096, used := 4096 }, mailbox := [512] }
    512 512 (by decide) (by decide)

/-! ## Name registry: single ownership and queueing

The documentation: "A well-known name is associated with one and only one
connection at a time."  The spec: a taken name may hold an ordered queue of
waiting owners. -/

/-- The registry is a map: no two entries carry the same name, so each name
has at most the one owner recorded in its entry. -/
def distinctNames (r : NameRegistry) : Prop :=
  r.entries.Pairwise fun e1 e2 => e1.name ≠ e2.name

instance (r : NameRegistry) : Decidable (distinctNames r) := by
  unfold distinctNames
  exact List.instDecidablePairwise r.entries

/-- Modelled from the spec: acquiring a name — a free name gets a fresh entry
owned by the caller; a taken name leaves the owner in place and appends the
caller to that entry's ordered queue of waiting owners (the QUEUE flag
behavior). -/
def kdbus_name_acquire (r : NameRegistry) (n : String) (conn : Nat) : NameRegistry :=
  if (r.entries.find? fun e => e.name == n).isSome then
    { entries := r.entries.map fun e =>
        if e.name == n then { e with queue := e.queue ++ [conn] } else e }
  else
    { entries := r.entries ++ [{ name := n, owner := conn, queue := [] }] }

/-- Modelled from the spec: releasing a name — with a non-empty queue the
head waiter is promoted to owner, otherwise the entry disappears. -/
def releaseEntry (n : String) (e : NameEntry) : Option NameEntry :=
  if e.name == n then
    match e.queue with
    | [] => none
    | h :: t => some { name := e.name, owner := h, queue := t }
  else some e

/-- Modelled from the spec: release over the whole registry. -/
def kdbus_name_release (r : NameRegistry) (n : String) : NameRegistry :=
  { entries := r.entries.filterMap (releaseEntry n) }

theorem releaseEntry_name (n : String) (e b : NameEntry)
    (h : b ∈ releaseEntry n e) : b.name = e.name := by
  unfold releaseEntry at h
  by_cases he : (e.name == n) = true
  · rw [if_pos he] at h
    cases hq : e.queue with
    | nil => rw [hq] at h; simp at h
    | cons x t =>
      rw [hq] at h
      simp only [Option.mem_def, Option.some_inj] at h
      rw [← h]
  · rw [if_neg he] at h
    simp only [Option.mem_def, Option.some_inj] at h
    rw [← h]

theorem distinctNames_acquire (r : NameRegistry) (n : String) (conn : Nat)
    (hd : distinctNames r) : distinctNames (kdbus_name_acquire r n conn) := by
  unfold kdbus_name_acquire distinctNames
  by_cases hf : (r.entries.find? fun e => e.name == n).isSome = true
  · rw [if_pos hf]
    apply List.Pairwise.map
      (fun e => if e.name == n then { e with queue := e.queue ++ [conn] } else e)
      (fun a b hab => ?_) hd
    by_cases ha : (a.name == n) = true <;> by_cases hb : (b.name == n) = true <;>
      simp [ha, hb, hab]
  · rw [if_neg hf]
    rw [List.pairwise_append]
    refine ⟨hd, by simp, ?_⟩
    intro a ha b hb
    have hfn : r.entries.find? (fun e => e.name == n) = none := by
      rw [← Option.not_isSome_iff_eq_none]
      exact hf
    rw [List.find?_eq_none] at hfn
    have := hfn a ha
    simp only [List.mem_singleton] at hb
    subst hb
    simp only [beq_iff_eq] at this
    simpa using this

theorem distinctNames_release (r : NameRegistry) (n : String)
    (hd : distinctNames r) : distinctNames (kdbus_name_release r n) := by
  unfold kdbus_name_release distinctNames
  apply List.Pairwise.filterMap (releaseEntry n)
    (fun a a' haa b hb b' hb' => ?_) hd
  rw [releaseEntry_name n a b hb, releaseEntry_name n a' b' hb']
  exact haa

theorem distinct_find_unique (r : NameRegistry) (e : NameEntry)
    (hd : distinctNames r) (he : e ∈ r.entries) :
    r.entries.find? (fun x => x.name == e.name) = some e := by
  cases hf : r.entries.find? (fun x => x.name == e.name) with
  | none =>
    rw [List.find?_eq_none] at hf
    have := hf e he
    simp at this
  | some e' =>
    have hp := List.find?_some hf
    simp only [beq_iff_eq] at hp
    have hm : e' ∈ r.entries := List.mem_of_find?_eq_some hf
    have hsym : Symmetric fun (e1 e2 : NameEntry) => e1.name ≠ e2.name :=
      fun a b h => h.symm
    by_cases heq : e' = e
    · rw [heq]
    · have := hd.forall hsym hm he heq
      exact absurd hp this

/-- C8: Each well-known name is owned by at most one connection at any
instant (entries are a map and acquire/release preserve that); a message
with destination id 0 and a name record is delivered to exactly the
connection owning that name at resolution time; and a further acquirer of a
taken name is appended to the ordered queue while the owner is unchanged. -/
theorem well_known_name_single_owner (r : NameRegistry) (ct : List Nat)
    (c : Nat) (e : NameEntry) (hd : distinctNames r) (he : e ∈ r.entries) :
    (∀ e1 ∈ r.entries, ∀ e2 ∈ r.entries, e1.name = e2.name → e1 = e2) ∧
    distinctNames (kdbus_name_acquire r e.name c) ∧
    distinctNames (kdbus_name_release r e.name) ∧
    resolveDest ct r 0 (some e.name) = .ok (.unicast e.owner) ∧
    { name := e.name, owner := e.owner, queue := e.queue ++ [c] } ∈
      (kdbus_name_acquire r e.name c).entries := by
  have hsym : Symmetric fun (e1 e2 : NameEntry) => e1.name ≠ e2.name :=
    fun a b h => h.symm
  refine ⟨?_, distinctNames_acquire r e.name c hd,
    distinctNames_release r e.name hd, ?_, ?_⟩
  · intro e1 h1 e2 h2 hname
    by_cases heq : e1 = e2
    · exact heq
    · exact absurd hname (hd.forall hsym h1 h2 heq)
  · have hf := distinct_find_unique r e hd he
    simp [resolveDest, KDBUS_DST_ID_BROADCAST, nameLookup, hf]
  · unfold kdbus_name_acquire
    have hf := distinct_find_unique r e hd he
    simp only [hf, Option.isSome_some, if_true]
    have : ({ name := e.name, owner := e.owner, queue := e.queue ++ [c] } : NameEntry) =
        (fun x => if x.name == e.name then { x with queue := x.queue ++ [c] } else x) e := by
      simp
    rw [this]
    exact List.mem_map_of_mem _ he

theorem well_known_name_single_owner_witness :
    (∀ e1 ∈ [({ name := "org.foo", owner := 2, queue := [] } : NameEntry)],
      ∀ e2 ∈ [({ name := "org.foo", owner := 2, queue := [] } : NameEntry)],
        e1.name = e2.name → e1 = e2) ∧
    distinctNames (kdbus_name_acquire
      { entries := [{ name := "org.foo", owner := 2, queue := [] }] } "org.foo" 3) ∧
    distinctNames (kdbus_name_release
      { entries := [{ name := "org.foo", owner := 2, queue := [] }] } "org.foo") ∧
    resolveDest [2] { entries := [{ name := "org.foo", owner := 2, queue := [] }] }
      0 (some "org.foo") = .ok (.unicast 2) ∧
    { name := "org.foo", owner := 2, queue := [] ++ [3] } ∈
      (kdbus_name_acquire
        { entries := [{ name := "org.foo", owner := 2, queue := [] }] }
        "org.foo" 3).entries :=
  well_known_name_single_owner
    { entries := [{ name := "org.foo", owner := 2, queue := [] }] } [2] 3
    { name := "org.foo", owner := 2, queue := [] }
    (by decide) (by simp)

/-! ## Per-pair FIFO ordering

`struct kdbus_conn` holds the mailbox `struct list_head msg_list`; the
documentation: "Messages are always queued in the destination connection."
The spec: per (sender, receiver) pair messages arrive in send order. -/

/-- Events on one ordered (sender, receiver) pair: the sender performs a
successful SEND of a message, or the receiver performs a RECV. -/
inductive PairEvent where
  | send (m : Nat)
  | recv
deriving Repr, DecidableEq

/-- The state of one (sender, receiver) pair: what the sender has
successfully sent, the receiver's in-flight FIFO mailbox (`msg_list`), and
what the receiver has consumed, each oldest-first. -/
structure PairChannel where
  sent : List Nat
  msg_list : List Nat
  received : List Nat
deriving Repr, DecidableEq

/-- The pair state before any traffic. -/
def channelInit : PairChannel := { sent := [], msg_list := [], received := [] }

/-- Modelled from the spec: SEND appends to the destination's mailbox; RECV
dequeues the oldest entry. -/
def channelStep (s : PairChannel) : PairEvent → PairChannel
  | .send m => { s with sent := s.sent ++ [m], msg_list := s.msg_list ++ [m] }
  | .recv =>
    match s.msg_list with
    | [] => s
    | m :: rest => { s with msg_list := rest, received := s.received ++ [m] }

/-- The pair state after a sequence of events. -/
def channelRun (evs : List PairEvent) : PairChannel :=
  evs.foldl channelStep channelInit

theorem channelStep_inv (s : PairChannel) (ev : PairEvent)
    (h : s.received ++ s.msg_list = s.sent) :
    (channelStep s ev).received ++ (channelStep s ev).msg_list =
      (channelStep s ev).sent := by
  cases ev with
  | send m => simp [channelStep, ← h]
  | recv =>
    cases hq : s.msg_list with
    | nil => simpa [channelStep, hq] using h
    | cons m rest =>
      simp only [channelStep, hq]
      rw [← h, hq]
      simp

theorem channelRun_inv (evs : List PairEvent) :
    (channelRun evs).received ++ (channelRun evs).msg_list =
      (channelRun evs).sent := by
  suffices hgen : ∀ s, s.received ++ s.msg_list = s.sent →
      (evs.foldl channelStep s).received ++ (evs.foldl channelStep s).msg_list =
        (evs.foldl channelStep s).sent by
    exact hgen channelInit (by simp [channelInit])
  induction evs with
  | nil => intro s h; simpa using h
  | cons ev rest ih =>
    intro s h
    simp only [List.foldl_cons]
    exact ih (channelStep s ev) (channelStep_inv s ev h)

/-- C9: For every (sender, receiver) pair, after any interleaving of sends
and receives the sequence of messages the receiver has consumed is a prefix
of the sequence the sender successfully sent, in the same order — the
remainder is exactly what is still queued in the mailbox. -/
theorem per_pair_fifo (evs : List PairEvent) :
    (channelRun evs).received ++ (channelRun evs).msg_list =
      (channelRun evs).sent ∧
    ∃ rest, (channelRun evs).sent = (channelRun evs).received ++ rest :=
  ⟨channelRun_inv evs, (channelRun evs).msg_list, (channelRun_inv evs).symm⟩

/-! ## Control handles: one-shot creation and cascading close

`enum kdbus_conn_type` in `kdbus_internal.h`: UNDEFINED, CONTROL, NS_OWNER,
BUS_OWNER, EP.  The documentation: "Every control file descriptor can only be
used once to create a new bus or domain; from that point, it is not used for
any further communication until the final close() ... closing it will
immediately cleanup the entire bus or domain and all its associated resources
and connections." -/

/-- The dynamic type of a connection handle, from `kdbus_internal.h`. -/
inductive kdbus_conn_type where
  | UNDEFINED
  | CONTROL
  | NS_OWNER
  | BUS_OWNER
  | EP
deriving Repr, DecidableEq

/-- A control handle: its current type and the object it created, if any. -/
structure CtrlHandle where
  type : kdbus_conn_type
  created : Option Nat
deriving Repr, DecidableEq

/-- Operations attempted on a control handle (close is modelled separately as
the destruction of the created object). -/
inductive CtrlOp where
  | makeBus (id : Nat)
  | makeDomain (id : Nat)
  | hello
  | send
  | recv
deriving Repr, DecidableEq

/-- The creation operations. -/
def isMake : CtrlOp → Bool
  | .makeBus _ => true
  | .makeDomain _ => true
  | _ => false

/-- Modelled from the spec: one ioctl on a control handle.  A CONTROL handle
accepts exactly one MAKE_BUS or MAKE_DOMAIN, becoming BUS_OWNER or NS_OWNER;
in the owner states every operation is rejected (only close remains). -/
def ctrlStep (h : CtrlHandle) (op : CtrlOp) : Except SendError CtrlHandle :=
  match h.type, op with
  | .CONTROL, .makeBus id => .ok { type := .BUS_OWNER, created := some id }
  | .CONTROL, .makeDomain id => .ok { type := .NS_OWNER, created := some id }
  | _, _ => .error .USAGE

/-- How many creation operations succeed when running `ops` on handle `h`. -/
def makeCount (h : CtrlHandle) : List CtrlOp → Nat
  | [] => 0
  | op :: ops =>
    match ctrlStep h op with
    | .error _ => makeCount h ops
    | .ok h' => (if isMake op then 1 else 0) + makeCount h' ops

theorem ctrlStep_owner_inert (h : CtrlHandle) (op : CtrlOp)
    (ht : h.type = .BUS_OWNER ∨ h.type = .NS_OWNER) :
    ctrlStep h op = .error .USAGE := by
  obtain ⟨t, c⟩ := h
  rcases ht with ht | ht <;> simp only at ht <;> subst ht <;>
    cases op <;> rfl

theorem makeCount_owner (ops : List CtrlOp) :
    ∀ h : CtrlHandle, (h.type = .BUS_OWNER ∨ h.type = .NS_OWNER) →
      makeCount h ops = 0 := by
  induction ops with
  | nil => intro h _; rfl
  | cons op rest ih =>
    intro h ht
    unfold makeCount
    rw [ctrlStep_owner_inert h op ht]
    exact ih h ht

theorem makeCount_control (ops : List CtrlOp) :
    ∀ h : CtrlHandle, h.type = .CONTROL → makeCount h ops ≤ 1 := by
  induction ops with
  | nil => intro h _; exact Nat.zero_le 1
  | cons op rest ih =>
    intro h ht
    obtain ⟨t, c⟩ := h
    simp only at ht
    subst ht
    cases op with
    | makeBus id =>
      unfold makeCount
      simp only [ctrlStep, isMake, if_true]
      rw [makeCount_owner rest { type := .BUS_OWNER, created := some id } (Or.inl rfl)]
    | makeDomain id =>
      unfold makeCount
      simp only [ctrlStep, isMake, if_true]
      rw [makeCount_owner rest { type := .NS_OWNER, created := some id } (Or.inr rfl)]
    | hello =>
      unfold makeCount
      simp only [ctrlStep]
      exact ih _ rfl
    | send =>
      unfold makeCount
      simp only [ctrlStep]
      exact ih _ rfl
    | recv =>
      unfold makeCount
      simp only [ctrlStep]
      exact ih _ rfl

/-! ### Cascading destruction on close

The world of created objects: each object carries its id and the id of its
parent (none for an object with no parent in the world).  Ids come from the
strictly increasing per-domain/per-bus counters, so children have larger ids
than their parents and the list is kept in creation (ascending id) order. -/

/-- Well-formed world: ids strictly ascend (creation order), every parent was
created earlier than its child, and every parent is present. -/
def WorldWF (objs : List (Nat × Option Nat)) : Prop :=
  objs.Pairwise (fun a b => a.1 < b.1) ∧
  ∀ o ∈ objs, ∀ p, o.2 = some p → p < o.1 ∧ ∃ q ∈ objs, q.1 = p

/-- Does this object's parent already belong to the dead set? -/
def parentDead (dead : List Nat) : Option Nat → Bool
  | some p => dead.contains p
  | none => false

/-- One step of computing the destruction closure: an object dies when it is
the closed handle's object or its parent is already dead. -/
def deadStep (root : Nat) (dead : List Nat) (o : Nat × Option Nat) : List Nat :=
  if o.1 == root || parentDead dead o.2 then o.1 :: dead else dead

/-- Modelled from the spec: the set of objects destroyed when the control
handle that created `root` is closed — `root` and everything below it. -/
def deadSet (objs : List (Nat × Option Nat)) (root : Nat) : List Nat :=
  objs.foldl (deadStep root) []

/-- Modelled from the spec: the world remaining after the close. -/
def closeDestroy (objs : List (Nat × Option Nat)) (root : Nat) :
    List (Nat × Option Nat) :=
  objs.filter fun o => !(deadSet objs root).contains o.1

/-- `id` is the closed object or one of its descendants through parent
edges. -/
inductive Descends (objs : List (Nat × Option Nat)) (root : Nat) : Nat → Prop where
  | self : Descends objs root root
  | child (p i : Nat) : Descends objs root p → (i, some p) ∈ objs →
      Descends objs root i

theorem deadStep_mono (root : Nat) (dead : List Nat) (o : Nat × Option Nat)
    (x : Nat) (hx : x ∈ dead) : x ∈ deadStep root dead o := by
  unfold deadStep
  split
  · exact List.mem_cons_of_mem _ hx
  · exact hx

theorem foldl_deadStep_mono (root : Nat) :
    ∀ (l : List (Nat × Option Nat)) (acc : List Nat) (x : Nat),
      x ∈ acc → x ∈ l.foldl (deadStep root) acc := by
  intro l
  induction l with
  | nil => intro acc x hx; exact hx
  | cons o t ih =>
    intro acc x hx
    exact ih (deadStep root acc o) x (deadStep_mono root acc o x hx)

theorem foldl_deadStep_notadded (root p : Nat) :
    ∀ (l : List (Nat × Option Nat)) (acc : List Nat),
      (∀ o ∈ l, o.1 ≠ p) →
      (p ∈ l.foldl (deadStep root) acc ↔ p ∈ acc) := by
  intro l
  induction l with
  | nil => intro acc _; exact Iff.rfl
  | cons o t ih =>
    intro acc hne
    simp only [List.foldl_cons]
    rw [ih (deadStep root acc o) fun x hx => hne x (List.mem_cons_of_mem _ hx)]
    unfold deadStep
    split
    · have hop : o.1 ≠ p := hne o (List.mem_cons_self _ _)
      constructor
      · intro hc
        rcases List.mem_cons.mp hc with hc | hc
        · exact absurd hc.symm hop
        · exact hc
      · exact fun hc => List.mem_cons_of_mem _ hc
    · exact Iff.rfl

theorem foldl_deadStep_root (root : Nat) :
    ∀ (l : List (Nat × Option Nat)) (acc : List Nat) (o : Nat × Option Nat),
      o ∈ l → o.1 = root → root ∈ l.foldl (deadStep root) acc := by
  intro l
  induction l with
  | nil => intro acc o ho _; exact absurd ho (List.not_mem_nil o)
  | cons a t ih =>
    intro acc o ho hr
    simp only [List.foldl_cons]
    rcases List.mem_cons.mp ho with hc | hc
    · subst hc
      apply foldl_deadStep_mono
      unfold deadStep
      rw [if_pos (by simp [hr])]
      rw [hr]
      exact List.mem_cons_self _ _
    · exact ih (deadStep root acc a) o hc hr

theorem foldl_deadStep_closure (root : Nat) :
    ∀ (l : List (Nat × Option Nat)) (acc : List Nat) (i p : Nat),
      l.Pairwise (fun a b => a.1 < b.1) → (i, some p) ∈ l → p < i →
      p ∈ l.foldl (deadStep root) acc → i ∈ l.foldl (deadStep root) acc := by
  intro l
  induction l with
  | nil => intro acc i p _ hm; exact absurd hm (List.not_mem_nil _)
  | cons o t ih =>
    intro acc i p hsort hm hpi hp
    have hsort' := (List.pairwise_cons.mp hsort).2
    have hhead := (List.pairwise_cons.mp hsort).1
    simp only [List.foldl_cons] at hp ⊢
    rcases List.mem_cons.mp hm with hc | hc
    · subst hc
      have htne : ∀ x ∈ t, x.1 ≠ p := by
        intro x hx
        have : (i, some p).1 < x.1 := hhead x hx
        simp only at this
        omega
      have hpacc : p ∈ deadStep root acc (i, some p) := by
        rw [foldl_deadStep_notadded root p t (deadStep root acc (i, some p)) htne] at hp
        exact hp
      have hpacc' : p ∈ acc := by
        unfold deadStep at hpacc
        split at hpacc
        · rcases List.mem_cons.mp hpacc with hc | hc
          · simp only at hc; omega
          · exact hc
        · exact hpacc
      apply foldl_deadStep_mono
      unfold deadStep
      rw [if_pos]
      · exact List.mem_cons_self _ _
      · simp only [parentDead, Bool.or_eq_true]
        right
        simpa using hpacc'
    · exact ih (deadStep root acc o) i p hsort' hc hpi hp

theorem foldl_deadStep_sound (root : Nat) (objs : List (Nat × Option Nat)) :
    ∀ (l : List (Nat × Option Nat)) (acc : List Nat),
      (∀ x ∈ acc, (∃ o ∈ objs, o.1 = x) ∧ Descends objs root x) →
      (∀ o ∈ l, o ∈ objs) →
      ∀ x ∈ l.foldl (deadStep root) acc,
        (∃ o ∈ objs, o.1 = x) ∧ Descends objs root x := by
  intro l
  induction l with
  | nil => intro acc hacc _ x hx; exact hacc x hx
  | cons o t ih =>
    intro acc hacc hsub x hx
    simp only [List.foldl_cons] at hx
    refine ih (deadStep root acc o) ?_ (fun y hy => hsub y (List.mem_cons_of_mem _ hy)) x hx
    intro y hy
    unfold deadStep at hy
    split at hy
    · rcases List.mem_cons.mp hy with hc | hc
      · subst hc
        have hoo : o ∈ objs := hsub o (List.mem_cons_self _ _)
        refine ⟨⟨o, hoo, rfl⟩, ?_⟩
        rename_i hcond
        rw [Bool.or_eq_true] at hcond
        rcases hcond with hcond | hcond
        · have : o.1 = root := by simpa using hcond
          rw [this]
          exact Descends.self
        · unfold parentDead at hcond
          cases hp : o.2 with
          | none => rw [hp] at hcond; simp at hcond
          | some p =>
            rw [hp] at hcond
            have hpacc : p ∈ acc := by simpa using hcond
            have hdp : Descends objs root p := (hacc p hpacc).2
            have : (o.1, some p) ∈ objs := by
              have : o = (o.1, o.2) := rfl
              rw [← hp]
              exact hoo
            exact Descends.child p o.1 hdp this
      · exact hacc y hc
    · exact hacc y hy

theorem deadSet_complete (objs : List (Nat × Option Nat)) (root : Nat)
    (hwf : WorldWF objs) :
    ∀ x, Descends objs root x → (∃ o ∈ objs, o.1 = x) →
      x ∈ deadSet objs root := by
  intro x hd
  induction hd with
  | self =>
    intro hpres
    rcases hpres with ⟨o, ho, h1⟩
    exact foldl_deadStep_root root objs [] o ho h1
  | child p i hdp hmem ih =>
    intro _
    have hpq := hwf.2 (i, some p) hmem p rfl
    have hpdead : p ∈ deadSet objs root := ih hpq.2
    exact foldl_deadStep_closure root objs [] i p hwf.1 hmem hpq.1 hpdead

theorem deadSet_iff (objs : List (Nat × Option Nat)) (root : Nat)
    (hwf : WorldWF objs) (x : Nat) :
    x ∈ deadSet objs root ↔ (∃ o ∈ objs, o.1 = x) ∧ Descends objs root x := by
  constructor
  · exact fun hx => foldl_deadStep_sound root objs objs [] (by simp)
      (fun o ho => ho) x hx
  · exact fun ⟨hp, hd⟩ => deadSet_complete objs root hwf x hd hp

/-- C5: A control handle admits at most one successful MAKE_BUS/MAKE_DOMAIN
over its lifetime; after a successful creation every further operation is
rejected (only close remains); and closing it destroys exactly the created
object together with all of its descendants — in particular every surviving
object's parent also survives, so no orphans remain. -/
theorem control_handle_once (ops : List CtrlOp) (h : CtrlHandle) (op : CtrlOp)
    (objs : List (Nat × Option Nat)) (root i p : Nat)
    (hwf : WorldWF objs) :
    makeCount { type := .CONTROL, created := none } ops ≤ 1 ∧
    ((h.type = .BUS_OWNER ∨ h.type = .NS_OWNER) → ctrlStep h op = .error .USAGE) ∧
    (∀ x, x ∈ deadSet objs root ↔ (∃ o ∈ objs, o.1 = x) ∧ Descends objs root x) ∧
    ((i, some p) ∈ closeDestroy objs root →
      ∃ o ∈ closeDestroy objs root, o.1 = p) := by
  refine ⟨makeCount_control ops _ rfl, ctrlStep_owner_inert h op,
    deadSet_iff objs root hwf, ?_⟩
  intro hsurv
  have hmem : (i, some p) ∈ objs := List.mem_of_mem_filter hsurv
  have hikeep : ((deadSet objs root).contains i) = false := by
    have := List.of_mem_filter hsurv
    simpa using this
  have hinot : i ∉ deadSet objs root := by simpa using hikeep
  have hpq := hwf.2 (i, some p) hmem p rfl
  rcases hpq.2 with ⟨q, hq, hq1⟩
  refine ⟨q, ?_, hq1⟩
  apply List.mem_filter.mpr
  refine ⟨hq, ?_⟩
  have hpnot : p ∉ deadSet objs root := by
    intro hpdead
    exact hinot (foldl_deadStep_closure root objs [] i p hwf.1 hmem hpq.1 hpdead)
  rw [hq1]
  simpa using hpnot

theorem control_handle_once_witness :
    makeCount { type := .CONTROL, created := none }
      [.makeBus 5, .makeBus 6, .hello] ≤ 1 ∧
    ((({ type := .BUS_OWNER, created := some 5 } : CtrlHandle).type =
        kdbus_conn_type.BUS_OWNER ∨
      ({ type := .BUS_OWNER, created := some 5 } : CtrlHandle).type =
        kdbus_conn_type.NS_OWNER) →
      ctrlStep { type := .BUS_OWNER, created := some 5 } (.makeBus 6) =
        .error .USAGE) ∧
    (∀ x, x ∈ deadSet [(1, none), (2, some 1), (3, some 2)] 2 ↔
      (∃ o ∈ [((1 : Nat), (none : Option Nat)), (2, some 1), (3, some 2)], o.1 = x) ∧
        Descends [(1, none), (2, some 1), (3, some 2)] 2 x) ∧
    ((3, some 2) ∈ closeDestroy [(1, none), (2, some 1), (3, some 2)] 2 →
      ∃ o ∈ closeDestroy [(1, none), (2, some 1), (3, some 2)] 2, o.1 = 2) :=
  control_handle_once [.makeBus 5, .makeBus 6, .hello]
    { type := .BUS_OWNER, created := some 5 } (.makeBus 6)
    [(1, none), (2, some 1), (3, some 2)] 2 3 2
    (by constructor
        · decide
        · decide)

/-! ## Shared message objects and reference counting

`kdbus_internal.h` declares `struct kdbus_kmsg { struct kref kref; struct
kdbus_msg msg; }` and mailbox entries `struct kdbus_msg_list_entry { struct
kdbus_kmsg *kmsg; ... }`: each queued entry holds a counted reference to a
shared message object. -/

/-- Modelled from the spec: the message-object heap — live kmsg objects as
(id, refcount) with ids drawn from a counter — together with all mailbox
entries (connection id, kmsg id) across the system (the refcounting code
itself is not in src/; the structures are declared in `kdbus_internal.h`). -/
structure MsgSystem where
  heap : List (Nat × Nat)
  entries : List (Nat × Nat)
  next_msg : Nat
deriving Repr, DecidableEq

/-- Ids of the live kmsg objects. -/
def heapIds (s : MsgSystem) : List Nat := s.heap.map fun h => h.1

/-- Number of mailbox entries referencing kmsg `i`. -/
def entryCount (l : List (Nat × Nat)) (i : Nat) : Nat :=
  (l.filter fun e => e.2 == i).length

/-- Modelled from the spec: enqueueing one message to several connections —
one shared kmsg object is allocated with one reference per recipient, and
every recipient's mailbox entry points at that same object. -/
def kmsg_broadcast (s : MsgSystem) (recipients : List Nat) : MsgSystem :=
  if recipients.isEmpty then s
  else
    { heap := s.heap ++ [(s.next_msg, recipients.length)],
      entries := s.entries ++ recipients.map fun c => (c, s.next_msg),
      next_msg := s.next_msg + 1 }

/-- Drop one reference of kmsg `i` in the heap; the object goes away exactly
when the count reaches zero. -/
def releaseHeap (i : Nat) (h : Nat × Nat) : Option (Nat × Nat) :=
  if h.1 == i then (if h.2 - 1 = 0 then none else some (h.1, h.2 - 1))
  else some h

/-- Modelled from the spec: a connection consuming or dropping its mailbox
entry for kmsg `i` — the entry disappears and the kref is decremented, the
object being freed only when the last reference is released. -/
def kmsg_release (s : MsgSystem) (c i : Nat) : MsgSystem :=
  if (c, i) ∈ s.entries then
    { heap := s.heap.filterMap (releaseHeap i),
      entries := s.entries.erase (c, i),
      next_msg := s.next_msg }
  else s

/-- The refcounting invariant: each live object's count equals the number of
mailbox entries referencing it and is positive; every entry references a live
object; object ids are unique and below the allocation counter. -/
def MsgInv (s : MsgSystem) : Prop :=
  (∀ h ∈ s.heap, h.2 = entryCount s.entries h.1 ∧ 1 ≤ h.2 ∧ h.1 < s.next_msg) ∧
  (∀ e ∈ s.entries, e.2 ∈ heapIds s) ∧
  (heapIds s).Nodup

theorem entryCount_append (l1 l2 : List (Nat × Nat)) (i : Nat) :
    entryCount (l1 ++ l2) i = entryCount l1 i + entryCount l2 i := by
  simp [entryCount, List.filter_append]

theorem entryCount_cons (e : Nat × Nat) (l : List (Nat × Nat)) (i : Nat) :
    entryCount (e :: l) i = (if e.2 = i then 1 else 0) + entryCount l i := by
  unfold entryCount
  by_cases h : e.2 = i
  · simp [List.filter_cons, h, Nat.add_comm]
  · simp [List.filter_cons, h]

theorem entryCount_eq_zero (l : List (Nat × Nat)) (i : Nat)
    (h : ∀ e ∈ l, e.2 ≠ i) : entryCount l i = 0 := by
  unfold entryCount
  rw [List.length_eq_zero, List.filter_eq_nil_iff]
  intro e he
  simpa using h e he

theorem entryCount_all (l : List (Nat × Nat)) (i : Nat)
    (h : ∀ e ∈ l, e.2 = i) : entryCount l i = l.length := by
  unfold entryCount
  rw [List.filter_eq_self.mpr]
  intro e he
  simpa using h e he

theorem entryCount_pos (l : List (Nat × Nat)) (e : Nat × Nat) (i : Nat)
    (he : e ∈ l) (hi : e.2 = i) : 1 ≤ entryCount l i := by
  unfold entryCount
  have hm : e ∈ l.filter fun x => x.2 == i :=
    List.mem_filter.mpr ⟨he, by simpa using hi⟩
  have := List.length_pos.mpr (List.ne_nil_of_mem hm)
  omega

theorem entryCount_mem (l : List (Nat × Nat)) (i : Nat)
    (h : 1 ≤ entryCount l i) : ∃ e ∈ l, e.2 = i := by
  unfold entryCount at h
  cases hf : l.filter (fun x => x.2 == i) with
  | nil => rw [hf] at h; simp at h
  | cons e t =>
    have hm : e ∈ l.filter fun x => x.2 == i := by
      rw [hf]; exact List.mem_cons_self _ _
    have := List.mem_filter.mp hm
    exact ⟨e, this.1, by simpa using this.2⟩

theorem releaseHeap_fst (i : Nat) (h h' : Nat × Nat)
    (hm : releaseHeap i h = some h') : h'.1 = h.1 := by
  unfold releaseHeap at hm
  by_cases h1 : (h.1 == i) = true
  · rw [if_pos h1] at hm
    by_cases h2 : h.2 - 1 = 0
    · rw [if_pos h2] at hm; simp at hm
    · rw [if_neg h2] at hm
      simp only [Option.some_inj] at hm
      rw [← hm]
  · rw [if_neg h1] at hm
    simp only [Option.some_inj] at hm
    rw [← hm]

theorem heapIds_filterMap_sublist (i : Nat) :
    ∀ l : List (Nat × Nat),
      ((l.filterMap (releaseHeap i)).map fun h => h.1).Sublist
        (l.map fun h => h.1) := by
  intro l
  induction l with
  | nil => simp
  | cons h t ih =>
    cases hr : releaseHeap i h with
    | none =>
      simp only [List.filterMap_cons, hr, List.map_cons]
      exact ih.cons _
    | some h' =>
      simp only [List.filterMap_cons, hr, List.map_cons]
      rw [releaseHeap_fst i h h' hr]
      exact ih.cons₂ _

theorem heapIds_lt (s : MsgSystem) (hI : MsgInv s) (j : Nat)
    (hj : j ∈ heapIds s) : j < s.next_msg := by
  rcases List.mem_map.mp hj with ⟨h, hh, h1⟩
  have := (hI.1 h hh).2.2
  omega

theorem msgInv_broadcast (s : MsgSystem) (recipients : List Nat)
    (hI : MsgInv s) : MsgInv (kmsg_broadcast s recipients) := by
  unfold kmsg_broadcast
  by_cases hr : recipients.isEmpty
  · rw [if_pos hr]; exact hI
  · rw [if_neg hr]
    obtain ⟨h1, h2, h3⟩ := hI
    have hlen : 1 ≤ recipients.length := by
      cases recipients with
      | nil => simp at hr
      | cons a t => simp
    have hnew : ∀ e ∈ recipients.map fun c => (c, s.next_msg),
        e.2 = s.next_msg := by
      intro e he
      rcases List.mem_map.mp he with ⟨c, _, hc⟩
      rw [← hc]
    have hold : ∀ e ∈ s.entries, e.2 ≠ s.next_msg := by
      intro e he
      have := heapIds_lt s ⟨h1, h2, h3⟩ e.2 (h2 e he)
      omega
    unfold MsgInv heapIds
    dsimp only
    refine ⟨?_, ?_, ?_⟩
    · intro h hh
      rcases List.mem_append.mp hh with hc | hc
      · obtain ⟨he, hp, hlt⟩ := h1 h hc
        refine ⟨?_, hp, by omega⟩
        have hz : entryCount (recipients.map fun c => (c, s.next_msg)) h.1 = 0 := by
          apply entryCount_eq_zero
          intro e hme
          have := hnew e hme
          omega
        rw [entryCount_append, hz, he]
        omega
      · simp only [List.mem_singleton] at hc
        subst hc
        refine ⟨?_, by simpa using hlen, by omega⟩
        dsimp only
        rw [entryCount_append, entryCount_eq_zero s.entries _ hold,
          entryCount_all _ _ hnew, List.length_map]
        omega
    · intro e he
      simp only [List.map_append, List.map_cons, List.map_nil]
      rcases List.mem_append.mp he with hc | hc
      · exact List.mem_append.mpr (Or.inl (h2 e hc))
      · apply List.mem_append.mpr
        right
        have := hnew e hc
        simp [this]
    · simp only [List.map_append, List.map_cons, List.map_nil]
      rw [List.nodup_append]
      refine ⟨h3, List.nodup_singleton _, ?_⟩
      intro x hx hx'
      simp only [List.mem_singleton] at hx'
      have := heapIds_lt s ⟨h1, h2, h3⟩ x hx
      omega

theorem msgInv_release (s : MsgSystem) (c i : Nat) (hI : MsgInv s) :
    MsgInv (kmsg_release s c i) := by
  unfold kmsg_release
  by_cases hm : (c, i) ∈ s.entries
  · rw [if_pos hm]
    obtain ⟨h1, h2, h3⟩ := hI
    obtain ⟨l1, l2, hnl1, hsplit, herase⟩ := List.exists_erase_eq hm
    have hcount : ∀ j, entryCount s.entries j =
        entryCount (l1 ++ l2) j + (if j = i then 1 else 0) := by
      intro j
      conv_lhs => rw [hsplit]
      rw [entryCount_append, entryCount_cons, entryCount_append]
      by_cases hj : j = i
      · subst hj; simp only [if_pos rfl]; omega
      · rw [if_neg hj, if_neg (fun h : (i : Nat) = j => hj h.symm)]
        omega
    rw [herase]
    unfold MsgInv heapIds
    dsimp only
    refine ⟨?_, ?_, ?_⟩
    · intro h' hh'
      rcases List.mem_filterMap.mp hh' with ⟨h, hh, hr⟩
      obtain ⟨he, hp, hlt⟩ := h1 h hh
      unfold releaseHeap at hr
      by_cases hfst : (h.1 == i) = true
      · rw [if_pos hfst] at hr
        by_cases hz : h.2 - 1 = 0
        · rw [if_pos hz] at hr; simp at hr
        · rw [if_neg hz] at hr
          simp only [Option.some_inj] at hr
          have hfst' : h.1 = i := by simpa using hfst
          have hci := hcount i
          rw [if_pos rfl] at hci
          rw [hfst'] at he
          subst hr
          dsimp only
          rw [hfst']
          exact ⟨by omega, by omega, by omega⟩
      · rw [if_neg hfst] at hr
        simp only [Option.some_inj] at hr
        have hfst' : h.1 ≠ i := by simpa using hfst
        have hcj := hcount h.1
        rw [if_neg hfst'] at hcj
        subst hr
        exact ⟨by omega, hp, hlt⟩
    · intro e he
      have hee : e ∈ s.entries := by
        rw [hsplit]
        rcases List.mem_append.mp he with hc | hc
        · exact List.mem_append.mpr (Or.inl hc)
        · exact List.mem_append.mpr (Or.inr (List.mem_cons_of_mem _ hc))
      have he2 : e.2 ∈ heapIds s := h2 e hee
      rcases List.mem_map.mp he2 with ⟨h, hh, hfst⟩
      obtain ⟨hcc, hp, hlt⟩ := h1 h hh
      by_cases hei : e.2 = i
      · have hfi : h.1 = i := by omega
        have hcnt : 1 ≤ entryCount (l1 ++ l2) i :=
          entryCount_pos (l1 ++ l2) e i he hei
        have hci := hcount i
        rw [if_pos rfl] at hci
        rw [hfi] at hcc
        have hkeep : releaseHeap i h = some (h.1, h.2 - 1) := by
          unfold releaseHeap
          rw [if_pos (by simpa using hfi), if_neg (by omega)]
        have hmf : (h.1, h.2 - 1) ∈ s.heap.filterMap (releaseHeap i) :=
          List.mem_filterMap.mpr ⟨h, hh, hkeep⟩
        apply List.mem_map.mpr
        refine ⟨(h.1, h.2 - 1), hmf, ?_⟩
        dsimp only
        omega
      · have hne : h.1 ≠ i := by omega
        have hkeep : releaseHeap i h = some h := by
          unfold releaseHeap
          rw [if_neg (by simpa using hne)]
        have hmf : h ∈ s.heap.filterMap (releaseHeap i) :=
          List.mem_filterMap.mpr ⟨h, hh, hkeep⟩
        exact List.mem_map.mpr ⟨h, hmf, hfst⟩
    · exact (heapIds_filterMap_sublist i s.heap).nodup h3
  · rw [if_neg hm]; exact ⟨hI.1, hI.2.1, hI.2.2⟩

theorem msg_live_iff (s : MsgSystem) (hI : MsgInv s) (j : Nat) :
    j ∈ heapIds s ↔ 1 ≤ entryCount s.entries j := by
  constructor
  · intro hj
    rcases List.mem_map.mp hj with ⟨h, hh, hfst⟩
    obtain ⟨he, hp, _⟩ := hI.1 h hh
    rw [← hfst, ← he]
    exact hp
  · intro hc
    rcases entryCount_mem s.entries j hc with ⟨e, he, he2⟩
    have := hI.2.1 e he
    rw [he2] at this
    exact this

/-- C10: Enqueueing one message to several connections gives every recipient
a mailbox entry referencing the same shared kmsg object; the refcounting
invariant (each object's count equals the number of entries referencing it)
is preserved by enqueue and release; a receiver still holding an entry after
another receiver's release still finds the object live; and an object is live
exactly while at least one queue entry references it, so it is freed only
after the last release. -/
theorem kmsg_shared_reference (s : MsgSystem) (recipients : List Nat)
    (a b c i : Nat) (hI : MsgInv s) :
    (recipients ≠ [] → ∀ x ∈ recipients,
      (x, s.next_msg) ∈ (kmsg_broadcast s recipients).entries) ∧
    MsgInv (kmsg_broadcast s recipients) ∧
    MsgInv (kmsg_release s c i) ∧
    ((b, i) ∈ (kmsg_release s a i).entries →
      i ∈ heapIds (kmsg_release s a i)) ∧
    (∀ j, j ∈ heapIds s ↔ 1 ≤ entryCount s.entries j) := by
  refine ⟨?_, msgInv_broadcast s recipients hI, msgInv_release s c i hI,
    ?_, msg_live_iff s hI⟩
  · intro hne x hx
    unfold kmsg_broadcast
    rw [if_neg (by simpa using hne)]
    simp only
    apply List.mem_append.mpr
    right
    exact List.mem_map.mpr ⟨x, hx, rfl⟩
  · intro hb
    have hI' := msgInv_release s a i hI
    have := hI'.2.1 (b, i) hb
    simpa using this

theorem kmsg_shared_reference_witness :
    (([3, 4] : List Nat) ≠ [] → ∀ x ∈ ([3, 4] : List Nat),
      (x, (1 : Nat)) ∈ (kmsg_broadcast
        { heap := [(0, 2)], entries := [(1, 0), (2, 0)], next_msg := 1 }
        [3, 4]).entries) ∧
    MsgInv (kmsg_broadcast
      { heap := [(0, 2)], entries := [(1, 0), (2, 0)], next_msg := 1 } [3, 4]) ∧
    MsgInv (kmsg_release
      { heap := [(0, 2)], entries := [(1, 0), (2, 0)], next_msg := 1 } 1 0) ∧
    (((2 : Nat), (0 : Nat)) ∈ (kmsg_release
        { heap := [(0, 2)], entries := [(1, 0), (2, 0)], next_msg := 1 }
        1 0).entries →
      0 ∈ heapIds (kmsg_release
        { heap := [(0, 2)], entries := [(1, 0), (2, 0)], next_msg := 1 } 1 0)) ∧
    (∀ j, j ∈ heapIds
        { heap := [(0, 2)], entries := [(1, 0), (2, 0)], next_msg := 1 } ↔
      1 ≤ entryCount [(1, 0), (2, 0)] j) :=
  kmsg_shared_reference
    { heap := [(0, 2)], entries := [(1, 0), (2, 0)], next_msg := 1 }
    [3, 4] 1 2 1 0 (by refine ⟨?_, ?_, ?_⟩ <;> decide)

end Kdbus
